import Mathlib

/-!
Verification of the echoflow pipeline-orchestration core.

The development shallowly embeds the relevant parts of the repository:

* `parse_raw_json` — the weekly chunker from `echoflow/convert/tasks.py`;
* `process_output_transects` — the per-transect result aggregator from
  `echoflow/stages/utils/file_utils.py`;
* `parse_file_path` — the temporal classifier from
  `echoflow/subflows/fetch/utils.py`;
* `init_flow` — the orchestration loop with client lifecycle management from
  `echoflow/stages_v2/subflows/initialization_flow.py`.

Python dictionaries are embedded as insertion-ordered association lists,
Python exceptions as `Except String`, and the Dask/Prefect side effects of
`init_flow` as an explicit event trace.
-/

namespace Echoflow

/-! ## Weekly chunker (`echoflow/convert/tasks.py`, `parse_raw_json`) -/

/-- A raw-url record as consumed by `parse_raw_json`.  Only the `jday`
field steers the chunking; `path` stands in for the rest of the payload
(`file_path`, `instrument`, `month`, `year`, `datetime`). -/
structure RawRec where
  jday : Int
  path : String
deriving DecidableEq, Repr

/-- `sorted({r.get('jday') for r in raw_dicts})`: the distinct `jday`
values in ascending order. -/
def allJdays (rs : List RawRec) : List Int :=
  List.insertionSort (fun a b => a ≤ b) (rs.map (fun r => r.jday)).dedup

/-- `[xs[i : i + 7] for i in range(0, len(xs), 7)]`: cut a list into
consecutive windows of 7 elements, the last window possibly shorter. -/
def chunk7 {α : Type} : List α → List (List α)
  | [] => []
  | x :: xs => (x :: xs.take 6) :: chunk7 (xs.drop 6)
termination_by l => l.length
decreasing_by simp [List.length_drop]; omega

/-- `day_dict[d]`: the input records whose `jday` equals `d`, in input
order. -/
def dayGroup (rs : List RawRec) (d : Int) : List RawRec :=
  rs.filter (fun r => decide (r.jday = d))

/-- The chunking step of `parse_raw_json`: one group per 7-day window of
distinct `jday` values, each group concatenating the per-day record lists
of its window.  (The JSON reading that precedes this in the Python task is
file I/O and is not part of the algorithm.) -/
def parse_raw_json (rs : List RawRec) : List (List RawRec) :=
  (chunk7 (allJdays rs)).map (fun week => (week.map (dayGroup rs)).flatten)

/-! ## Result aggregator (`echoflow/stages/utils/file_utils.py`,
`process_output_transects`) -/

/-- An echodata result record: a transect identifier, an opaque payload and
the per-file error flag. -/
structure EdRec where
  transect : Int
  data : String
  error : Bool
deriving DecidableEq, Repr

/-- The `Output` model: wraps the aggregated record list of one transect. -/
structure Output where
  data : List EdRec
deriving DecidableEq, Repr

/-- The tail of the `ValueError` message raised by
`process_output_transects` (the process name is spliced in front). -/
def errTail : String :=
  " successfully since 1 or more raw filesfailed to convert. Try fixing or skipping the files from the process.If `use_offline` flag is set to true, processed files will be skipped the next run."

/-- The full `ValueError` message: it names the offending process. -/
def errFullMsg (name : String) : String :=
  "Could not complete " ++ name ++ errTail

/-- Key insertion into a Python dict viewed as its ordered key list:
a fresh key is appended, an existing key leaves the order unchanged. -/
def keyInsert (ks : List Int) (t : Int) : List Int :=
  if t ∈ ks then ks else ks ++ [t]

/-- The keys of `transect_dict` after the aggregation loop: the distinct
transect identifiers in order of first appearance. -/
def keyOrder (l : List EdRec) : List Int :=
  l.foldl (fun ks ed => keyInsert ks ed.transect) []

/-- One loop iteration on `transect_dict`: append the record to its
transect entry, creating the entry at the end of the dict if absent. -/
def insertEd (dict : List (Int × List EdRec)) (ed : EdRec) : List (Int × List EdRec) :=
  if dict.any (fun p => decide (p.1 = ed.transect)) then
    dict.map (fun p => if p.1 = ed.transect then (p.1, p.2 ++ [ed]) else p)
  else
    dict ++ [(ed.transect, [ed])]

/-- The aggregation loop of `process_output_transects`: raise `ValueError`
on the first record whose error flag is set, otherwise accumulate the
records into `transect_dict`. -/
def buildTransectDict (name : String) :
    List (Int × List EdRec) → List EdRec → Except String (List (Int × List EdRec))
  | dict, [] => Except.ok dict
  | dict, ed :: rest =>
    if ed.error = true then Except.error (errFullMsg name)
    else buildTransectDict name (insertEd dict ed) rest

/-- `process_output_transects(name, ed_list)`: fail on any flagged record,
otherwise emit one `Output` per dict entry, in dict (insertion) order. -/
def process_output_transects (name : String) (ed_list : List EdRec) :
    Except String (List Output) :=
  match buildTransectDict name [] ed_list with
  | Except.error e => Except.error e
  | Except.ok dict => Except.ok (dict.map (fun p => Output.mk p.2))

/-- The dictionary `process_output_transects` computes on an error-free
input: keys are the distinct transects in first-appearance order, the entry
of `t` holds the records of transect `t` in input order. -/
def mkDict (l : List EdRec) : List (Int × List EdRec) :=
  (keyOrder l).map (fun t => (t, l.filter (fun ed => decide (ed.transect = t))))

/-- The grouping `process_output_transects` computes on an error-free
input: one group per first-appearance-ordered distinct transect, each group
filtering the input in order. -/
def mkOutputs (l : List EdRec) : List Output :=
  (keyOrder l).map (fun t => Output.mk (l.filter (fun ed => decide (ed.transect = t))))

/-! ## Temporal classifier (`echoflow/subflows/fetch/utils.py`,
`parse_file_path`) -/

/-- A Python value as it appears in the group dictionary returned by
`parse_file_path`: a captured string, a derived integer, or `None`. -/
inductive Value where
  | vstr (s : String)
  | vint (n : Int)
  | vnone
deriving DecidableEq, Repr

/-- The result of `dateutil.parser.parse` on the captured date and time
substrings, as consumed by `parse_file_path`: the ISO string and the
derived calendar fields (`tm_yday` is the 1-based day of year). -/
structure DateTimeInfo where
  iso : String
  month : Int
  year : Int
  yday : Int

/-- `match_dict.pop(k)` restricted to its effect on the dictionary. -/
def popKey (d : List (String × Value)) (k : String) : List (String × Value) :=
  d.filter (fun p => decide (p.1 ≠ k))

/-- `match_dict.setdefault(k, v)`: append the binding at the end unless the
key is already present. -/
def setdefault (d : List (String × Value)) (k : String) (v : Value) :
    List (String × Value) :=
  if (d.lookup k).isSome then d else d ++ [(k, v)]

/-- `k in match_dict`: key membership in the group dictionary. -/
def hasGroup (d : List (String × Value)) (k : String) : Bool :=
  (d.lookup k).isSome

/-- `parse_file_path(raw_file, fname_pattern)` after the regex search.  The
search outcome is the input: `none` when the pattern did not match (then
`file_match.groupdict()` raises `AttributeError` on `None`), otherwise the
group dictionary.  `parseDT` is the external `dateutil` parser applied to
the concatenated date and time captures. -/
def parse_file_path (search : Option (List (String × Value)))
    (parseDT : Value → Value → DateTimeInfo) : Except String (List (String × Value)) :=
  match search with
  | none => Except.error "AttributeError: NoneType object has no attribute groupdict"
  | some md =>
    if hasGroup md "date" && hasGroup md "time" then
      let dt := parseDT ((md.lookup "date").getD Value.vnone)
        ((md.lookup "time").getD Value.vnone)
      let md1 := popKey (popKey md "date") "time"
      let md2 := setdefault md1 "month" (Value.vint dt.month)
      let md3 := setdefault md2 "year" (Value.vint dt.year)
      let md4 := setdefault md3 "jday" (Value.vint dt.yday)
      Except.ok (setdefault md4 "datetime" (Value.vstr dt.iso))
    else
      Except.ok (setdefault md "datetime" Value.vnone)

/-! ## Orchestration loop
(`echoflow/stages_v2/subflows/initialization_flow.py`, `init_flow`) -/

/-- A Prefect task runner as far as the loop can observe it: either a Dask
runner pointing at the shared client, or a runner already configured on the
stage (an execution-backend override). -/
inductive TaskRunner where
  | daskRunner (addr : String)
  | presetRunner (id : Nat)
deriving DecidableEq, Repr

/-- The slice of `prefect_config_dict` the control flow inspects. -/
structure PrefectConfig where
  task_runner : Option TaskRunner
deriving DecidableEq, Repr

/-- A pipeline stage: its function name, module locator, and optional
execution-backend override among its runtime options. -/
structure Stage where
  name : String
  module : String
  runnerOverride : Option TaskRunner
deriving DecidableEq, Repr

/-- A process: an ordered list of stages. -/
structure Process where
  stages : List Stage
deriving DecidableEq, Repr

/-- The recipe fields `init_flow` reads: the process list and the cluster
directives. -/
structure Recipe where
  pipeline : List Process
  scheduler_address : Option String
  use_local_dask : Bool
deriving DecidableEq, Repr

/-- Modelled from the spec: `get_prefect_config_dict`
(`echoflow/stages_v2/utils/config_utils.py` is not part of the provided
sources).  Per the spec, per-stage runtime options are merged from
recipe-level defaults and stage-level overrides before invocation, the
recognized keys including an execution-backend override; the merge is
modelled as returning the stage's optional task-runner override. -/
def get_prefect_config_dict (stage : Stage) : PrefectConfig :=
  PrefectConfig.mk stage.runnerOverride

/-- The distributed client held by the loop: connected to a caller-supplied
remote scheduler, or to a locally created `LocalCluster` (3 workers). -/
inductive ClientKind where
  | remote (addr : String)
  | localClient (nWorkers : Nat)
deriving DecidableEq, Repr

/-- Observable side effects of `init_flow`, in program order. -/
inductive FlowEvent (α : Type) where
  | connectedRemote (addr : String)
  | createdLocalCluster (nWorkers : Nat)
  | ranStage (s : Stage) (input : α)
  | closedClient (c : ClientKind)
deriving DecidableEq, Repr

/-- The mutable state of `init_flow`: the shared `client`, the value
threaded between stages (`data`), the last stage result (`output`, unbound
before the first stage runs), and the event trace. -/
structure FlowState (α : Type) where
  client : Option ClientKind
  data : α
  output : Option α
  events : List (FlowEvent α)

/-- `if client is None: client = Client(pipeline.scheduler_address)`. -/
def maybeRemote {α : Type} (addr : String) (st : FlowState α) : FlowState α :=
  match st.client with
  | none =>
    { st with
      client := some (ClientKind.remote addr)
      events := st.events ++ [FlowEvent.connectedRemote addr] }
  | some _ => st

/-- `if client is None: cluster = LocalCluster(n_workers=3); client = Client(...)`. -/
def maybeLocal {α : Type} (st : FlowState α) : FlowState α :=
  match st.client with
  | none =>
    { st with
      client := some (ClientKind.localClient 3)
      events := st.events ++ [FlowEvent.createdLocalCluster 3] }
  | some _ => st

/-- The backend-selection conditional of the loop body: connect to the
remote scheduler when one is configured and no local cluster is requested;
otherwise lazily create the local cluster when requested and the stage has
no task runner configured. -/
def clientStep {α : Type} (r : Recipe) (cfg : PrefectConfig) (st : FlowState α) :
    FlowState α :=
  match r.scheduler_address, r.use_local_dask with
  | some addr, false => maybeRemote addr st
  | _, _ =>
    if r.use_local_dask = true ∧ cfg.task_runner = none then maybeLocal st else st

/-- One iteration of the stage loop: resolve the stage function (modelled
from the spec as the parameter `f`, since `dynamic_function_call` is not
part of the provided sources), merge its config, select the backend, invoke
the function on the current data, and thread the output forward. -/
def stepStage {α : Type} (r : Recipe) (f : Stage → α → α) (st : FlowState α)
    (s : Stage) : FlowState α :=
  let st1 := clientStep r (get_prefect_config_dict s) st
  { st1 with
    data := f s st1.data
    output := some (f s st1.data)
    events := st1.events ++ [FlowEvent.ranStage s st1.data] }

/-- The state before the first stage: no client, input data, `output`
unbound, empty trace. -/
def initState {α : Type} (d0 : α) : FlowState α :=
  { client := none, data := d0, output := none, events := [] }

/-- The nested `for process in process_list: for stage in process.stages:`
loop. -/
def runLoop {α : Type} (r : Recipe) (f : Stage → α → α) (st : FlowState α) :
    FlowState α :=
  r.pipeline.foldl (fun acc proc => proc.stages.foldl (stepStage r f) acc) st

/-- `client.close()` evaluated on `None`. -/
def attrErrorMsg : String :=
  "AttributeError: NoneType object has no attribute close"

/-- `return output` with `output` never assigned. -/
def unboundOutputMsg : String :=
  "UnboundLocalError: local variable output referenced before assignment"

/-- The epilogue of `init_flow`: close the client exactly when no scheduler
address is configured and a local cluster was requested, then return
`output`.  Both Python failure modes are made explicit: `client.close()` on
an absent client, and returning the never-assigned `output`. -/
def teardown {α : Type} (r : Recipe) (st : FlowState α) :
    FlowState α × Except String α :=
  if r.scheduler_address = none ∧ r.use_local_dask = true then
    match st.client with
    | none => (st, Except.error attrErrorMsg)
    | some c =>
      match st.output with
      | none => ({ st with events := st.events ++ [FlowEvent.closedClient c] },
          Except.error unboundOutputMsg)
      | some o => ({ st with events := st.events ++ [FlowEvent.closedClient c] },
          Except.ok o)
  else
    match st.output with
    | none => (st, Except.error unboundOutputMsg)
    | some o => (st, Except.ok o)

/-- `init_flow(pipeline, dataset)`: run the stage loop on the classified
input collection `d0`, then tear down.  Returns the final state (for its
trace) together with the returned value or raised error. -/
def init_flow {α : Type} (r : Recipe) (f : Stage → α → α) (d0 : α) :
    FlowState α × Except String α :=
  teardown r (runLoop r f (initState d0))

/-- The stages of a recipe in declared order: processes in recipe order,
stages in process order. -/
def declStages (r : Recipe) : List Stage :=
  (r.pipeline.map (fun p => p.stages)).flatten

/-- The stage invocations recorded in a trace, with their inputs. -/
def ranEvents {α : Type} : List (FlowEvent α) → List (Stage × α)
  | [] => []
  | FlowEvent.ranStage s i :: es => (s, i) :: ranEvents es
  | _ :: es => ranEvents es

/-- The invocation sequence the spec prescribes: each stage applied to the
previous transition's output, starting from `d0`. -/
def expectedRuns {α : Type} (f : Stage → α → α) : α → List Stage → List (Stage × α)
  | _, [] => []
  | d, s :: ss => (s, d) :: expectedRuns f (f s d) ss

/-- Recognizer for local-cluster-creation events. -/
def isLocalCreate {α : Type} : FlowEvent α → Bool
  | FlowEvent.createdLocalCluster _ => true
  | _ => false

/-- Recognizer for client-close events. -/
def isClose {α : Type} : FlowEvent α → Bool
  | FlowEvent.closedClient _ => true
  | _ => false

/-- Number of local clusters created in a trace. -/
def localCreates {α : Type} (es : List (FlowEvent α)) : Nat :=
  es.countP isLocalCreate

/-- Number of client closes in a trace. -/
def closes {α : Type} (es : List (FlowEvent α)) : Nat :=
  es.countP isClose

/-- How many local-cluster creations a given client value accounts for. -/
def clientLocalCount : Option ClientKind → Nat
  | some (ClientKind.localClient _) => 1
  | _ => 0

/-- The loop invariant of `init_flow`: the number of local clusters created
so far matches the kind of the held client, nothing has been closed inside
the loop, and when no scheduler address is configured the client can only
be a locally created one. -/
def FlowInv {α : Type} (r : Recipe) (st : FlowState α) : Prop :=
  localCreates st.events = clientLocalCount st.client ∧
  closes st.events = 0 ∧
  (r.scheduler_address = none → ∀ a, st.client ≠ some (ClientKind.remote a))

/-! ### Concrete inputs used by witnesses and counterexamples -/

/-- Example 3 of the spec: two records of transect 1, the second flagged. -/
def exConvertRecs : List EdRec :=
  [EdRec.mk 1 "t1a" false, EdRec.mk 1 "t1b" true]

/-- Example 2 of the spec: three error-free records over transects 1 and 2. -/
def exGroupRecs : List EdRec :=
  [EdRec.mk 1 "a" false, EdRec.mk 1 "b" false, EdRec.mk 2 "c" false]

/-- A group dictionary with a `date` capture group but no `time` group. -/
def exDateOnly : List (String × Value) := [("date", Value.vstr "20170115")]

/-- A constant stand-in for the external datetime parser. -/
def exParseDT : Value → Value → DateTimeInfo :=
  fun _ _ => DateTimeInfo.mk "" 0 0 0

/-- A stage with no preconfigured task runner. -/
def exStagePlain : Stage := Stage.mk "convert" "echoflow.stages" none

/-- A stage whose runtime options already configure an execution backend. -/
def exStagePreset : Stage :=
  Stage.mk "convert" "echoflow.stages" (some (TaskRunner.presetRunner 0))

/-- A recipe that supplies a scheduler address and also requests a local
cluster. -/
def exRecipeHostedLocal : Recipe :=
  Recipe.mk [Process.mk [exStagePlain]] (some "tcp://scheduler:8786") true

/-- A recipe requesting a local cluster, one process with one plain stage. -/
def exRecipeLocal : Recipe := Recipe.mk [Process.mk [exStagePlain]] none true

/-- A recipe requesting a local cluster whose only stage carries a backend
override. -/
def exRecipeAllPreset : Recipe := Recipe.mk [Process.mk [exStagePreset]] none true

/-- A recipe with no processes at all. -/
def exRecipeEmpty : Recipe := Recipe.mk [] none false

/-- A concrete stage semantics counting the stages applied. -/
def exRunCount : Stage → Nat → Nat := fun _ d => d + 1

/-! ## Properties of the weekly chunker -/

/-- Concatenating the 7-windows gives back the original list. -/
lemma chunk7_flatten {α : Type} (l : List α) : (chunk7 l).flatten = l := by
  induction l using chunk7.induct with
  | case1 => simp [chunk7]
  | case2 x xs ih =>
    simp only [chunk7, List.flatten_cons, ih, List.cons_append, List.take_append_drop]

/-- There are `ceil(n / 7)` windows over a list of length `n`. -/
lemma chunk7_length {α : Type} (l : List α) :
    (chunk7 l).length = (l.length + 6) / 7 := by
  induction l using chunk7.induct with
  | case1 => simp [chunk7]
  | case2 x xs ih =>
    simp only [chunk7, List.length_cons, ih, List.length_drop]
    omega

/-- Windows of a pairwise-related list are pairwise related elementwise. -/
lemma chunk7_pairwise {α : Type} {R : α → α → Prop} :
    ∀ l : List α, l.Pairwise R →
      (chunk7 l).Pairwise (fun c1 c2 => ∀ x ∈ c1, ∀ y ∈ c2, R x y) := by
  intro l
  induction l using chunk7.induct with
  | case1 => intro _; simp [chunk7]
  | case2 x xs ih =>
    intro h
    rw [show x :: xs = (x :: xs.take 6) ++ xs.drop 6 by
      rw [List.cons_append, List.take_append_drop]] at h
    rw [List.pairwise_append] at h
    obtain ⟨_, h2, hcross⟩ := h
    simp only [chunk7]
    refine List.Pairwise.cons ?_ (ih h2)
    intro c hc a ha b hb
    refine hcross a ha b ?_
    have hbmem : b ∈ (chunk7 (xs.drop 6)).flatten := List.mem_flatten.mpr ⟨c, hc, hb⟩
    rwa [chunk7_flatten] at hbmem

/-- Each window of a duplicate-free list is duplicate-free. -/
lemma chunk7_nodup {α : Type} {l : List α} (h : l.Nodup) :
    ∀ c ∈ chunk7 l, c.Nodup :=
  (List.nodup_flatten.mp (by rwa [chunk7_flatten])).1

/-- The distinct sorted day list is sorted. -/
lemma allJdays_sorted (rs : List RawRec) :
    List.Sorted (fun a b => a ≤ b) (allJdays rs) :=
  List.sorted_insertionSort _ _

/-- The distinct sorted day list has no duplicates. -/
lemma allJdays_nodup (rs : List RawRec) : (allJdays rs).Nodup :=
  (List.perm_insertionSort _ _).symm.nodup (List.nodup_dedup _)

/-- Membership in the distinct sorted day list. -/
lemma mem_allJdays {rs : List RawRec} {j : Int} :
    j ∈ allJdays rs ↔ ∃ r ∈ rs, r.jday = j := by
  unfold allJdays
  rw [(List.perm_insertionSort _ _).mem_iff, List.mem_dedup, List.mem_map]

/-- The distinct sorted day list is strictly increasing. -/
lemma allJdays_pairwise_lt (rs : List RawRec) :
    (allJdays rs).Pairwise (fun a b => a < b) :=
  List.Pairwise.imp (fun h => lt_of_le_of_ne h.1 h.2)
    ((allJdays_sorted rs).and (allJdays_nodup rs))

/-- Filtering by a disjunction of two pointwise-exclusive predicates is a
permutation of the concatenation of the two filters. -/
lemma filter_or_perm {α : Type} (p q : α → Bool) :
    ∀ l : List α, (∀ a, ¬(p a = true ∧ q a = true)) →
      (l.filter (fun a => p a || q a)).Perm (l.filter p ++ l.filter q) := by
  intro l h
  induction l with
  | nil => simp
  | cons a l ih =>
    cases hp : p a with
    | true =>
      have hq : q a = false := by
        cases hqq : q a
        · rfl
        · exact absurd ⟨hp, hqq⟩ (h a)
      simp only [List.filter_cons, hp, hq, Bool.true_or, if_true, List.cons_append]
      exact ih.cons a
    | false =>
      cases hq : q a with
      | false =>
        simp only [List.filter_cons, hp, hq, Bool.or_false, Bool.false_eq_true,
          if_false]
        exact ih
      | true =>
        simp only [List.filter_cons, hp, hq, Bool.false_or, if_true]
        exact (ih.cons a).trans List.perm_middle.symm

/-- The per-day groups of a duplicate-free window, concatenated, are a
permutation of the records whose day lies in the window. -/
lemma dayGroups_perm (rs : List RawRec) :
    ∀ w : List Int, w.Nodup →
      ((w.map (dayGroup rs)).flatten).Perm
        (rs.filter (fun r => decide (r.jday ∈ w))) := by
  intro w
  induction w with
  | nil => simp
  | cons d w ih =>
    intro hnd
    have hd : d ∉ w := (List.nodup_cons.mp hnd).1
    have hw : w.Nodup := (List.nodup_cons.mp hnd).2
    have hcong : rs.filter (fun r => decide (r.jday ∈ d :: w))
        = rs.filter (fun r => decide (r.jday = d) || decide (r.jday ∈ w)) := by
      apply List.filter_congr
      intro r _
      simp [List.mem_cons]
    have hdisj : ∀ r : RawRec,
        ¬(decide (r.jday = d) = true ∧ decide (r.jday ∈ w) = true) := by
      intro r hc
      have e1 : r.jday = d := of_decide_eq_true hc.1
      have e2 : r.jday ∈ w := of_decide_eq_true hc.2
      exact hd (e1 ▸ e2)
    have step1 : (((d :: w).map (dayGroup rs)).flatten)
        = dayGroup rs d ++ (w.map (dayGroup rs)).flatten := by
      rw [List.map_cons, List.flatten_cons]
    rw [hcong, step1]
    exact (List.Perm.append_left (dayGroup rs d) (ih hw)).trans
      (filter_or_perm _ _ rs hdisj).symm

/-- A map applied to a list is pointwise related to the list. -/
lemma forall₂_map_self {α β : Type} (g : α → β) (P : β → α → Prop) :
    ∀ L : List α, (∀ w ∈ L, P (g w) w) → List.Forall₂ P (L.map g) L := by
  intro L
  induction L with
  | nil => intro _; exact List.Forall₂.nil
  | cons w L ih =>
    intro h
    exact List.Forall₂.cons (h w (by simp))
      (ih (fun w2 hw2 => h w2 (by simp [hw2])))

/-- Flattening the per-window groups equals flattening the per-day groups
of the flattened windows. -/
lemma flatten_map_dayGroups (rs : List RawRec) :
    ∀ L : List (List Int),
      ((L.map (fun w => (w.map (dayGroup rs)).flatten)).flatten)
        = ((L.flatten.map (dayGroup rs)).flatten) := by
  intro L
  induction L with
  | nil => rfl
  | cons w L ih =>
    simp only [List.map_cons, List.flatten_cons, List.map_append,
      List.flatten_append, ih]

/-- C1: the weekly chunker produces `ceil(distinctJdayCount / 7)` batches;
`allJdays` is exactly the duplicate-free ascending list of day values of
the input; each batch holds exactly (up to order, with multiplicity) the
input records whose day lies in its window; the batches together hold every
input record exactly once; and batches are strictly ordered by ascending
day value, hence pairwise disjoint. -/
theorem parse_raw_json_correct (rs : List RawRec) :
    (parse_raw_json rs).length = ((allJdays rs).length + 6) / 7 ∧
    (allJdays rs).Nodup ∧
    (∀ j : Int, j ∈ allJdays rs ↔ ∃ r ∈ rs, r.jday = j) ∧
    List.Forall₂ (fun b w => b.Perm (rs.filter (fun r => decide (r.jday ∈ w))))
      (parse_raw_json rs) (chunk7 (allJdays rs)) ∧
    ((parse_raw_json rs).flatten).Perm rs ∧
    (parse_raw_json rs).Pairwise
      (fun b1 b2 => ∀ r ∈ b1, ∀ s ∈ b2, r.jday < s.jday) := by
  refine ⟨?_, allJdays_nodup rs, fun j => mem_allJdays, ?_, ?_, ?_⟩
  · rw [parse_raw_json, List.length_map, chunk7_length]
  · apply forall₂_map_self
    intro w hw
    exact dayGroups_perm rs w (chunk7_nodup (allJdays_nodup rs) w hw)
  · unfold parse_raw_json
    rw [flatten_map_dayGroups, chunk7_flatten]
    refine (dayGroups_perm rs (allJdays rs) (allJdays_nodup rs)).trans ?_
    have hself : rs.filter (fun r => decide (r.jday ∈ allJdays rs)) = rs :=
      List.filter_eq_self.mpr
        (fun r hr => decide_eq_true (mem_allJdays.mpr ⟨r, hr, rfl⟩))
    rw [hself]
  · unfold parse_raw_json
    rw [List.pairwise_map]
    refine List.Pairwise.imp ?_
      (chunk7_pairwise (allJdays rs) (allJdays_pairwise_lt rs))
    intro w1 w2 hc r hr s hs
    obtain ⟨c1, hc1, hr1⟩ := List.mem_flatten.mp hr
    obtain ⟨d1, hd1, hc1e⟩ := List.mem_map.mp hc1
    obtain ⟨c2, hc2, hs1⟩ := List.mem_flatten.mp hs
    obtain ⟨d2, hd2, hc2e⟩ := List.mem_map.mp hc2
    rw [← hc1e] at hr1
    rw [← hc2e] at hs1
    have e1 : r.jday = d1 := of_decide_eq_true (List.mem_filter.mp hr1).2
    have e2 : s.jday = d2 := of_decide_eq_true (List.mem_filter.mp hs1).2
    rw [e1, e2]
    exact hc d1 hd1 d2 hd2

/-! ## Properties of the result aggregator -/

/-- Membership in a dict key list after one insertion. -/
lemma mem_keyInsert {ks : List Int} {t u : Int} :
    t ∈ keyInsert ks u ↔ t ∈ ks ∨ t = u := by
  unfold keyInsert
  by_cases h : u ∈ ks
  · rw [if_pos h]
    constructor
    · exact fun ht => Or.inl ht
    · rintro (ht | rfl)
      · exact ht
      · exact h
  · rw [if_neg h]
    simp [List.mem_append]

/-- Membership in the accumulated key list of the aggregation loop. -/
lemma mem_foldl_keyInsert :
    ∀ (l : List EdRec) (ks : List Int) (t : Int),
      t ∈ l.foldl (fun ks ed => keyInsert ks ed.transect) ks ↔
        t ∈ ks ∨ ∃ ed ∈ l, ed.transect = t := by
  intro l
  induction l with
  | nil => intro ks t; simp
  | cons e l ih =>
    intro ks t
    rw [List.foldl_cons, ih, mem_keyInsert]
    constructor
    · rintro ((h | h) | h)
      · exact Or.inl h
      · exact Or.inr ⟨e, by simp, h.symm⟩
      · obtain ⟨ed, hm, he⟩ := h
        exact Or.inr ⟨ed, by simp [hm], he⟩
    · rintro (h | ⟨ed, hm, he⟩)
      · exact Or.inl (Or.inl h)
      · rcases List.mem_cons.mp hm with rfl | hm2
        · exact Or.inl (Or.inr he.symm)
        · exact Or.inr ⟨ed, hm2, he⟩

/-- The accumulated key list of the aggregation loop stays duplicate-free. -/
lemma nodup_foldl_keyInsert :
    ∀ (l : List EdRec) (ks : List Int), ks.Nodup →
      (l.foldl (fun ks ed => keyInsert ks ed.transect) ks).Nodup := by
  intro l
  induction l with
  | nil => intro ks h; exact h
  | cons e l ih =>
    intro ks h
    rw [List.foldl_cons]
    apply ih
    unfold keyInsert
    by_cases hm : e.transect ∈ ks
    · rw [if_pos hm]; exact h
    · rw [if_neg hm]
      simp [List.nodup_append, h, hm]

/-- Membership in the first-appearance key order. -/
lemma mem_keyOrder {l : List EdRec} {t : Int} :
    t ∈ keyOrder l ↔ ∃ ed ∈ l, ed.transect = t := by
  unfold keyOrder
  rw [mem_foldl_keyInsert]
  simp

/-- The first-appearance key order is duplicate-free. -/
lemma keyOrder_nodup (l : List EdRec) : (keyOrder l).Nodup :=
  nodup_foldl_keyInsert l [] List.nodup_nil

/-- Appending one record extends the key order by at most its transect. -/
lemma keyOrder_append_singleton (pre : List EdRec) (ed : EdRec) :
    keyOrder (pre ++ [ed]) = keyInsert (keyOrder pre) ed.transect := by
  unfold keyOrder
  rw [List.foldl_append]
  rfl

/-- One aggregation-loop step preserves the dict characterization. -/
lemma insertEd_mkDict (pre : List EdRec) (ed : EdRec) :
    insertEd (mkDict pre) ed = mkDict (pre ++ [ed]) := by
  have hany : (mkDict pre).any (fun p => decide (p.1 = ed.transect)) = true ↔
      ed.transect ∈ keyOrder pre := by
    rw [List.any_eq_true]
    constructor
    · rintro ⟨p, hp, he⟩
      obtain ⟨t, ht, hte⟩ := List.mem_map.mp hp
      have h1 : p.1 = ed.transect := of_decide_eq_true he
      rw [← hte] at h1
      exact h1 ▸ ht
    · intro hm
      exact ⟨(ed.transect, pre.filter (fun e2 => decide (e2.transect = ed.transect))),
        List.mem_map.mpr ⟨ed.transect, hm, rfl⟩, by simp⟩
  unfold insertEd
  by_cases hmem : ed.transect ∈ keyOrder pre
  · rw [if_pos (hany.mpr hmem)]
    unfold mkDict
    rw [keyOrder_append_singleton]
    unfold keyInsert
    rw [if_pos hmem, List.map_map]
    apply List.map_congr_left
    intro t ht
    by_cases hte : t = ed.transect
    · subst hte
      simp [List.filter_append]
    · have hne : ¬(decide (ed.transect = t) = true) := by
        simp
        exact fun h2 => hte h2.symm
      simp only [Function.comp, hte, if_false, List.filter_append]
      rw [List.filter_cons, if_neg hne]
      simp
  · rw [if_neg (by rw [hany]; exact hmem)]
    unfold mkDict
    rw [keyOrder_append_singleton]
    unfold keyInsert
    rw [if_neg hmem, List.map_append]
    have h1 : (keyOrder pre).map
        (fun t => (t, (pre ++ [ed]).filter (fun e2 => decide (e2.transect = t))))
        = (keyOrder pre).map
          (fun t => (t, pre.filter (fun e2 => decide (e2.transect = t)))) := by
      apply List.map_congr_left
      intro t ht
      have hne : ¬(decide (ed.transect = t) = true) := by
        simp
        intro h2
        exact hmem (h2 ▸ ht)
      rw [List.filter_append, List.filter_cons, if_neg hne]
      simp
    have h2 : ([ed.transect]).map
        (fun t => (t, (pre ++ [ed]).filter (fun e2 => decide (e2.transect = t))))
        = [(ed.transect, [ed])] := by
      have hnil : pre.filter (fun e2 => decide (e2.transect = ed.transect)) = [] := by
        rw [List.filter_eq_nil_iff]
        intro e2 hm2 hdec
        exact hmem (mem_keyOrder.mpr ⟨e2, hm2, of_decide_eq_true hdec⟩)
      simp [List.filter_append, hnil]
    rw [h1, h2]

/-- The aggregation loop raises on a flagged record. -/
lemma buildTransectDict_error (name : String) :
    ∀ l : List EdRec, (∃ ed ∈ l, ed.error = true) →
      ∀ dict, buildTransectDict name dict l = Except.error (errFullMsg name) := by
  intro l
  induction l with
  | nil =>
    rintro ⟨ed, h, _⟩
    cases h
  | cons e l ih =>
    rintro ⟨ed, hm, herr⟩ dict
    cases he : e.error with
    | true => simp [buildTransectDict, he]
    | false =>
      simp only [buildTransectDict, he, Bool.false_eq_true, if_false]
      apply ih
      rcases List.mem_cons.mp hm with rfl | hm2
      · rw [he] at herr
        cases herr
      · exact ⟨ed, hm2, herr⟩

/-- On error-free input the aggregation loop computes the characterized
dict. -/
lemma buildTransectDict_ok (name : String) :
    ∀ l : List EdRec, (∀ ed ∈ l, ed.error = false) →
      ∀ pre : List EdRec,
        buildTransectDict name (mkDict pre) l = Except.ok (mkDict (pre ++ l)) := by
  intro l
  induction l with
  | nil =>
    intro _ pre
    simp [buildTransectDict]
  | cons e l ih =>
    intro h pre
    have he : e.error = false := h e (by simp)
    simp only [buildTransectDict, he, Bool.false_eq_true, if_false]
    rw [insertEd_mkDict]
    have := ih (fun ed hm => h ed (by simp [hm])) (pre ++ [e])
    rw [this]
    simp

/-- On error-free input, `process_output_transects` returns the
characterized grouping. -/
lemma process_output_transects_ok (name : String) (l : List EdRec)
    (h : ∀ ed ∈ l, ed.error = false) :
    process_output_transects name l = Except.ok (mkOutputs l) := by
  unfold process_output_transects
  have h0 : buildTransectDict name [] l = Except.ok (mkDict l) := by
    have h1 := buildTransectDict_ok name l h []
    have h2 : mkDict ([] : List EdRec) = [] := rfl
    rw [h2, List.nil_append] at h1
    exact h1
  rw [h0]
  show Except.ok ((mkDict l).map (fun p => Output.mk p.2)) = Except.ok (mkOutputs l)
  unfold mkOutputs mkDict
  rw [List.map_map]
  rfl

/-- C2: if any record of a Result Aggregator call has its error flag set,
the call fails with a `ValueError` whose message names the process, and no
aggregated output is produced. -/
theorem process_output_transects_fail_fast (name : String) (ed_list : List EdRec)
    (h : ∃ ed ∈ ed_list, ed.error = true) :
    process_output_transects name ed_list =
      Except.error ("Could not complete " ++ name ++ errTail) := by
  unfold process_output_transects
  rw [buildTransectDict_error name ed_list h []]
  rfl

/-- Witness for the fail-fast theorem at Example 3 of the spec. -/
theorem process_output_transects_fail_fast_witness :
    (∃ ed ∈ exConvertRecs, ed.error = true) ∧
    process_output_transects "Convert" exConvertRecs =
      Except.error ("Could not complete " ++ "Convert" ++ errTail) :=
  ⟨⟨EdRec.mk 1 "t1b" true, by decide, rfl⟩,
    process_output_transects_fail_fast "Convert" exConvertRecs
      ⟨EdRec.mk 1 "t1b" true, by decide, rfl⟩⟩

/-- C6: on error-free input the Result Aggregator returns one aggregated
output per distinct transect identifier, grouped in first-appearance order
of the transect, each group listing its records in input order. -/
theorem process_output_transects_groups (name : String) (l : List EdRec)
    (h : ∀ ed ∈ l, ed.error = false) :
    process_output_transects name l =
      Except.ok ((keyOrder l).map (fun t =>
        Output.mk (l.filter (fun ed => decide (ed.transect = t))))) ∧
    (keyOrder l).Nodup ∧
    (∀ t : Int, t ∈ keyOrder l ↔ ∃ ed ∈ l, ed.transect = t) := by
  refine ⟨?_, keyOrder_nodup l, fun t => mem_keyOrder⟩
  rw [process_output_transects_ok name l h]
  rfl

/-- Witness for the grouping theorem at Example 2 of the spec. -/
theorem process_output_transects_groups_witness :
    (∀ ed ∈ exGroupRecs, ed.error = false) ∧
    (process_output_transects "Convert" exGroupRecs =
      Except.ok ((keyOrder exGroupRecs).map (fun t =>
        Output.mk (exGroupRecs.filter (fun ed => decide (ed.transect = t))))) ∧
    (keyOrder exGroupRecs).Nodup ∧
    (∀ t : Int, t ∈ keyOrder exGroupRecs ↔ ∃ ed ∈ exGroupRecs, ed.transect = t)) :=
  ⟨by decide, process_output_transects_groups "Convert" exGroupRecs (by decide)⟩

/-- A record of a flattened per-transect grouping comes from the grouped
list. -/
lemma mem_flatten_blocks {l : List EdRec} {ed : EdRec} {ts : List Int}
    (h : ed ∈ ((ts.map (fun u =>
      l.filter (fun e2 => decide (e2.transect = u)))).flatten)) :
    ed ∈ l := by
  obtain ⟨b, hb, hedb⟩ := List.mem_flatten.mp h
  obtain ⟨u, _, hbe⟩ := List.mem_map.mp hb
  rw [← hbe] at hedb
  exact (List.mem_filter.mp hedb).1

/-- Inserting the constant transect of a non-empty block once per record
amounts to a single insertion. -/
lemma foldl_keyInsert_const_block (t : Int) :
    ∀ (g : List EdRec) (ks : List Int), g ≠ [] → (∀ ed ∈ g, ed.transect = t) →
      g.foldl (fun ks ed => keyInsert ks ed.transect) ks = keyInsert ks t := by
  intro g
  induction g with
  | nil =>
    intro ks hg _
    exact absurd rfl hg
  | cons e g ih =>
    intro ks _ hall
    rw [List.foldl_cons, hall e (by simp)]
    by_cases hg : g = []
    · subst hg
      rfl
    · rw [ih (keyInsert ks t) hg (fun ed hm => hall ed (by simp [hm]))]
      unfold keyInsert
      by_cases hm : t ∈ ks
      · rw [if_pos hm, if_pos hm]
      · rw [if_neg hm, if_pos (by simp)]

/-- The key order of the flattened per-transect grouping, as a fold over
the group keys. -/
lemma keyOrder_flatten_blocks (l : List EdRec) :
    ∀ (ts : List Int) (ks : List Int), (∀ t ∈ ts, ∃ ed ∈ l, ed.transect = t) →
      (((ts.map (fun t =>
          l.filter (fun ed => decide (ed.transect = t)))).flatten).foldl
        (fun ks ed => keyInsert ks ed.transect) ks)
      = ts.foldl keyInsert ks := by
  intro ts
  induction ts with
  | nil =>
    intro ks _
    rfl
  | cons t ts ih =>
    intro ks hts
    rw [List.map_cons, List.flatten_cons, List.foldl_append]
    have hne : l.filter (fun ed => decide (ed.transect = t)) ≠ [] := by
      obtain ⟨ed, hm, he⟩ := hts t (by simp)
      intro hnil
      have hmem : ed ∈ l.filter (fun ed => decide (ed.transect = t)) :=
        List.mem_filter.mpr ⟨hm, decide_eq_true he⟩
      rw [hnil] at hmem
      cases hmem
    rw [foldl_keyInsert_const_block t _ ks hne
      (fun ed hm => of_decide_eq_true (List.mem_filter.mp hm).2)]
    rw [ih (keyInsert ks t) (fun t2 h2 => hts t2 (by simp [h2]))]
    rfl

/-- Inserting pairwise-distinct fresh keys appends them in order. -/
lemma foldl_keyInsert_nodup_fresh :
    ∀ (ts ks : List Int), ts.Nodup → (∀ t ∈ ts, t ∉ ks) →
      ts.foldl keyInsert ks = ks ++ ts := by
  intro ts
  induction ts with
  | nil =>
    intro ks _ _
    simp
  | cons t ts ih =>
    intro ks hnd hf
    rw [List.foldl_cons]
    rw [show keyInsert ks t = ks ++ [t] from by
      unfold keyInsert
      rw [if_neg (hf t (by simp))]]
    rw [ih (ks ++ [t]) (List.nodup_cons.mp hnd).2 ?_]
    · simp
    · intro u hu hmem
      rcases List.mem_append.mp hmem with h1 | h2
      · exact hf u (by simp [hu]) h1
      · have hut : u = t := by simpa using h2
        exact (List.nodup_cons.mp hnd).1 (hut ▸ hu)

/-- Filtering the flattened per-transect grouping by a key that occurs
once among the group keys recovers that group. -/
lemma filter_flatten_blocks (l : List EdRec) (t : Int) :
    ∀ ts : List Int, ts.Nodup → t ∈ ts →
      ((((ts.map (fun u =>
          l.filter (fun ed => decide (ed.transect = u)))).flatten).filter
        (fun ed => decide (ed.transect = t))))
      = l.filter (fun ed => decide (ed.transect = t)) := by
  intro ts
  induction ts with
  | nil =>
    intro _ hm
    cases hm
  | cons u ts ih =>
    intro hnd hm
    rw [List.map_cons, List.flatten_cons, List.filter_append]
    by_cases hut : u = t
    · subst hut
      have hrest : (((ts.map (fun u2 =>
          l.filter (fun ed => decide (ed.transect = u2)))).flatten).filter
            (fun ed => decide (ed.transect = u))) = [] := by
        rw [List.filter_eq_nil_iff]
        intro ed hmem hdec
        obtain ⟨b, hb, hedb⟩ := List.mem_flatten.mp hmem
        obtain ⟨u2, hu2, hbe⟩ := List.mem_map.mp hb
        rw [← hbe] at hedb
        have e1 : ed.transect = u2 := of_decide_eq_true (List.mem_filter.mp hedb).2
        have e2 : ed.transect = u := of_decide_eq_true hdec
        rw [e2] at e1
        exact (List.nodup_cons.mp hnd).1 (e1 ▸ hu2)
      rw [hrest, List.append_nil, List.filter_filter]
      apply List.filter_congr
      intro ed _
      rw [Bool.and_self]
    · have hfirst : ((l.filter (fun ed => decide (ed.transect = u))).filter
          (fun ed => decide (ed.transect = t))) = [] := by
        rw [List.filter_eq_nil_iff]
        intro ed hmem hdec
        have e1 : ed.transect = u := of_decide_eq_true (List.mem_filter.mp hmem).2
        have e2 : ed.transect = t := of_decide_eq_true hdec
        exact hut (e1 ▸ e2)
      rw [hfirst, List.nil_append]
      refine ih (List.nodup_cons.mp hnd).2 ?_
      rcases List.mem_cons.mp hm with h1 | h2
      · exact absurd h1.symm hut
      · exact h2

/-- C7: aggregation is idempotent on the grouping key: flattening the
partition produced by the Result Aggregator and aggregating again yields
the same partition — same groups, same order, same records within each
group. -/
theorem process_output_transects_idempotent (name : String) (l : List EdRec)
    (h : ∀ ed ∈ l, ed.error = false) (outs : List Output)
    (hout : process_output_transects name l = Except.ok outs) :
    process_output_transects name ((outs.map (fun o => o.data)).flatten) =
      Except.ok outs := by
  rw [process_output_transects_ok name l h] at hout
  have houts : mkOutputs l = outs := Except.ok.inj hout
  subst houts
  have hflat : ((mkOutputs l).map (fun o => o.data)) =
      (keyOrder l).map (fun t => l.filter (fun ed => decide (ed.transect = t))) := by
    unfold mkOutputs
    rw [List.map_map]
    rfl
  rw [hflat]
  have herr : ∀ ed ∈ (((keyOrder l).map (fun t =>
      l.filter (fun ed => decide (ed.transect = t)))).flatten), ed.error = false :=
    fun ed hm => h ed (mem_flatten_blocks hm)
  rw [process_output_transects_ok name _ herr]
  have hkeys : keyOrder (((keyOrder l).map (fun t =>
      l.filter (fun ed => decide (ed.transect = t)))).flatten) = keyOrder l := by
    show (((keyOrder l).map (fun t =>
      l.filter (fun ed => decide (ed.transect = t)))).flatten).foldl
        (fun ks ed => keyInsert ks ed.transect) [] = keyOrder l
    rw [keyOrder_flatten_blocks l (keyOrder l) []
      (fun t ht => mem_keyOrder.mp ht)]
    rw [foldl_keyInsert_nodup_fresh (keyOrder l) [] (keyOrder_nodup l)
      (fun t _ hmem => by cases hmem)]
    rw [List.nil_append]
  unfold mkOutputs
  rw [hkeys]
  congr 1
  apply List.map_congr_left
  intro t ht
  rw [filter_flatten_blocks l t (keyOrder l) (keyOrder_nodup l) ht]

/-- Witness for the idempotence theorem at Example 2 of the spec. -/
theorem process_output_transects_idempotent_witness :
    (∀ ed ∈ exGroupRecs, ed.error = false) ∧
    process_output_transects "Convert" exGroupRecs =
      Except.ok (mkOutputs exGroupRecs) ∧
    process_output_transects "Convert"
        (((mkOutputs exGroupRecs).map (fun o => o.data)).flatten) =
      Except.ok (mkOutputs exGroupRecs) :=
  ⟨by decide, process_output_transects_ok "Convert" exGroupRecs (by decide),
    process_output_transects_idempotent "Convert" exGroupRecs (by decide)
      (mkOutputs exGroupRecs)
      (process_output_transects_ok "Convert" exGroupRecs (by decide))⟩

/-! ## Properties of the temporal classifier -/

/-- Appending a binding for a different key does not change a lookup. -/
lemma lookup_append_ne (k k2 : String) (v : Value) (h : k ≠ k2) :
    ∀ d : List (String × Value), ((d ++ [(k2, v)]).lookup k) = d.lookup k := by
  intro d
  induction d with
  | nil =>
    have hb : (k == k2) = false := beq_eq_false_iff_ne.mpr h
    simp [List.lookup, hb]
  | cons p d ih =>
    rcases p with ⟨k1, v1⟩
    by_cases hk : (k == k1) = true
    · simp [List.lookup, hk]
    · simp only [List.cons_append, List.lookup, hk]
      exact ih

/-- `setdefault` with a different key does not change a lookup. -/
lemma lookup_setdefault_ne (d : List (String × Value)) {k k2 : String} (v : Value)
    (h : k ≠ k2) : ((setdefault d k2 v).lookup k) = d.lookup k := by
  unfold setdefault
  by_cases hp : ((d.lookup k2).isSome) = true
  · rw [if_pos hp]
  · rw [if_neg hp]
    exact lookup_append_ne k k2 v h d

/-- C8 (amended): when the pattern matches but defines a `date` group
without a `time` group or vice versa, the classifier returns the group
dictionary with only a `datetime` binding defaulted to `None`; in
particular no derived `jday`, `month` or `year` binding is added. -/
theorem parse_file_path_partial_groups (md : List (String × Value))
    (parseDT : Value → Value → DateTimeInfo)
    (h : (hasGroup md "date" = true ∧ hasGroup md "time" = false) ∨
         (hasGroup md "date" = false ∧ hasGroup md "time" = true)) :
    parse_file_path (some md) parseDT =
      Except.ok (setdefault md "datetime" Value.vnone) ∧
    ((setdefault md "datetime" Value.vnone).lookup "jday") = md.lookup "jday" ∧
    ((setdefault md "datetime" Value.vnone).lookup "month") = md.lookup "month" ∧
    ((setdefault md "datetime" Value.vnone).lookup "year") = md.lookup "year" := by
  have hcond : (hasGroup md "date" && hasGroup md "time") = false := by
    rcases h with ⟨h1, h2⟩ | ⟨h1, h2⟩ <;> rw [h1, h2] <;> rfl
  refine ⟨?_, ?_, ?_, ?_⟩
  · show (if (hasGroup md "date" && hasGroup md "time") = true then
        (fun dt =>
          Except.ok (setdefault (setdefault (setdefault (setdefault
            (popKey (popKey md "date") "time") "month" (Value.vint dt.month))
            "year" (Value.vint dt.year)) "jday" (Value.vint dt.yday))
            "datetime" (Value.vstr dt.iso)))
          (parseDT ((md.lookup "date").getD Value.vnone)
            ((md.lookup "time").getD Value.vnone))
      else Except.ok (setdefault md "datetime" Value.vnone))
      = Except.ok (setdefault md "datetime" Value.vnone)
    rw [hcond]
    rfl
  · exact lookup_setdefault_ne md Value.vnone (by decide)
  · exact lookup_setdefault_ne md Value.vnone (by decide)
  · exact lookup_setdefault_ne md Value.vnone (by decide)

/-- Witness for the partial-group theorem at a date-only dictionary. -/
theorem parse_file_path_partial_groups_witness :
    ((hasGroup exDateOnly "date" = true ∧ hasGroup exDateOnly "time" = false) ∨
      (hasGroup exDateOnly "date" = false ∧ hasGroup exDateOnly "time" = true)) ∧
    (parse_file_path (some exDateOnly) exParseDT =
      Except.ok (setdefault exDateOnly "datetime" Value.vnone) ∧
    ((setdefault exDateOnly "datetime" Value.vnone).lookup "jday")
      = exDateOnly.lookup "jday" ∧
    ((setdefault exDateOnly "datetime" Value.vnone).lookup "month")
      = exDateOnly.lookup "month" ∧
    ((setdefault exDateOnly "datetime" Value.vnone).lookup "year")
      = exDateOnly.lookup "year") :=
  ⟨Or.inl ⟨rfl, rfl⟩,
    parse_file_path_partial_groups exDateOnly exParseDT (Or.inl ⟨rfl, rfl⟩)⟩

/-- Counterexample to C8 as stated: on a date-only group dictionary, the
classifier does not return only the literal captured fields — it adds a
`datetime` key bound to `None`. -/
theorem parse_file_path_adds_datetime_key :
    parse_file_path (some exDateOnly) exParseDT =
      Except.ok [("date", Value.vstr "20170115"), ("datetime", Value.vnone)] ∧
    parse_file_path (some exDateOnly) exParseDT ≠ Except.ok exDateOnly := by
  have h1 : parse_file_path (some exDateOnly) exParseDT =
      Except.ok [("date", Value.vstr "20170115"), ("datetime", Value.vnone)] := rfl
  refine ⟨h1, ?_⟩
  rw [h1]
  intro hc
  have h2 := Except.ok.inj hc
  exact absurd h2 (by decide)

/-- C9: when the pattern does not match the identifier, the Temporal
Classifier fails with a propagated error and never returns a result
dictionary (the concrete Python error is the `AttributeError` raised by
calling `groupdict` on `None`; the spec taxonomy labels this failure
`PatternMismatch`). -/
theorem parse_file_path_no_match_fails (parseDT : Value → Value → DateTimeInfo) :
    parse_file_path none parseDT =
      Except.error "AttributeError: NoneType object has no attribute groupdict" :=
  rfl

/-! ## Properties of the orchestration loop -/

/-- Extracting the stage invocations distributes over trace concatenation. -/
lemma ranEvents_append {α : Type} :
    ∀ l1 l2 : List (FlowEvent α), ranEvents (l1 ++ l2) = ranEvents l1 ++ ranEvents l2 := by
  intro l1 l2
  induction l1 with
  | nil => rfl
  | cons e l ih => cases e <;> simp [ranEvents, ih]

/-- The remote-connection step leaves the threaded data unchanged. -/
lemma maybeRemote_data {α : Type} (addr : String) (st : FlowState α) :
    (maybeRemote addr st).data = st.data := by
  unfold maybeRemote
  cases st.client <;> rfl

/-- The local-cluster step leaves the threaded data unchanged. -/
lemma maybeLocal_data {α : Type} (st : FlowState α) :
    (maybeLocal st).data = st.data := by
  unfold maybeLocal
  cases st.client <;> rfl

/-- The remote-connection step leaves the last output unchanged. -/
lemma maybeRemote_output {α : Type} (addr : String) (st : FlowState α) :
    (maybeRemote addr st).output = st.output := by
  unfold maybeRemote
  cases st.client <;> rfl

/-- The local-cluster step leaves the last output unchanged. -/
lemma maybeLocal_output {α : Type} (st : FlowState α) :
    (maybeLocal st).output = st.output := by
  unfold maybeLocal
  cases st.client <;> rfl

/-- The remote-connection step records no stage invocation. -/
lemma maybeRemote_ranEvents {α : Type} (addr : String) (st : FlowState α) :
    ranEvents (maybeRemote addr st).events = ranEvents st.events := by
  unfold maybeRemote
  cases st.client
  · simp [ranEvents_append, ranEvents]
  · rfl

/-- The local-cluster step records no stage invocation. -/
lemma maybeLocal_ranEvents {α : Type} (st : FlowState α) :
    ranEvents (maybeLocal st).events = ranEvents st.events := by
  unfold maybeLocal
  cases st.client
  · simp [ranEvents_append, ranEvents]
  · rfl

/-- The backend-selection step is the identity, a remote connection (only
when a scheduler address is configured), or a local-cluster step. -/
lemma clientStep_cases {α : Type} (r : Recipe) (cfg : PrefectConfig) (st : FlowState α) :
    clientStep r cfg st = st ∨
    (∃ addr, r.scheduler_address = some addr ∧ clientStep r cfg st = maybeRemote addr st) ∨
    clientStep r cfg st = maybeLocal st := by
  unfold clientStep
  cases hs : r.scheduler_address with
  | some addr =>
    cases hb : r.use_local_dask with
    | false => exact Or.inr (Or.inl ⟨addr, rfl, rfl⟩)
    | true =>
      by_cases hc : cfg.task_runner = none
      · rw [if_pos ⟨rfl, hc⟩]
        exact Or.inr (Or.inr rfl)
      · rw [if_neg (fun h2 => hc h2.2)]
        exact Or.inl rfl
  | none =>
    by_cases hc : r.use_local_dask = true ∧ cfg.task_runner = none
    · rw [if_pos hc]
      exact Or.inr (Or.inr rfl)
    · rw [if_neg hc]
      exact Or.inl rfl

/-- The backend-selection step leaves the threaded data unchanged. -/
lemma clientStep_data {α : Type} (r : Recipe) (cfg : PrefectConfig) (st : FlowState α) :
    (clientStep r cfg st).data = st.data := by
  rcases clientStep_cases r cfg st with h | ⟨addr, _, h⟩ | h <;> rw [h]
  · exact maybeRemote_data addr st
  · exact maybeLocal_data st

/-- The backend-selection step leaves the last output unchanged. -/
lemma clientStep_output {α : Type} (r : Recipe) (cfg : PrefectConfig) (st : FlowState α) :
    (clientStep r cfg st).output = st.output := by
  rcases clientStep_cases r cfg st with h | ⟨addr, _, h⟩ | h <;> rw [h]
  · exact maybeRemote_output addr st
  · exact maybeLocal_output st

/-- The backend-selection step records no stage invocation. -/
lemma clientStep_ranEvents {α : Type} (r : Recipe) (cfg : PrefectConfig) (st : FlowState α) :
    ranEvents (clientStep r cfg st).events = ranEvents st.events := by
  rcases clientStep_cases r cfg st with h | ⟨addr, _, h⟩ | h <;> rw [h]
  · exact maybeRemote_ranEvents addr st
  · exact maybeLocal_ranEvents st

/-- One loop iteration applies the stage function to the threaded data. -/
lemma stepStage_data {α : Type} (r : Recipe) (f : Stage → α → α) (st : FlowState α)
    (s : Stage) : (stepStage r f st s).data = f s st.data := by
  unfold stepStage
  show f s (clientStep r (get_prefect_config_dict s) st).data = f s st.data
  rw [clientStep_data]

/-- One loop iteration stores the stage result as the last output. -/
lemma stepStage_output {α : Type} (r : Recipe) (f : Stage → α → α) (st : FlowState α)
    (s : Stage) : (stepStage r f st s).output = some (f s st.data) := by
  unfold stepStage
  show some (f s (clientStep r (get_prefect_config_dict s) st).data) = some (f s st.data)
  rw [clientStep_data]

/-- One loop iteration records exactly one stage invocation, on the current
data. -/
lemma stepStage_ranEvents {α : Type} (r : Recipe) (f : Stage → α → α) (st : FlowState α)
    (s : Stage) :
    ranEvents (stepStage r f st s).events = ranEvents st.events ++ [(s, st.data)] := by
  unfold stepStage
  show ranEvents ((clientStep r (get_prefect_config_dict s) st).events ++
    [FlowEvent.ranStage s (clientStep r (get_prefect_config_dict s) st).data])
    = ranEvents st.events ++ [(s, st.data)]
  rw [ranEvents_append, clientStep_ranEvents, clientStep_data]
  rfl

/-- An existing client survives one loop iteration unchanged. -/
lemma stepStage_client_some {α : Type} {r : Recipe} {f : Stage → α → α} {st : FlowState α}
    {s : Stage} {c : ClientKind} (h : st.client = some c) :
    (stepStage r f st s).client = some c := by
  unfold stepStage
  show (clientStep r (get_prefect_config_dict s) st).client = some c
  rcases clientStep_cases r (get_prefect_config_dict s) st with h2 | ⟨addr, _, h2⟩ | h2 <;>
    rw [h2]
  · exact h
  · unfold maybeRemote
    rw [h]
    exact h
  · unfold maybeLocal
    rw [h]
    exact h

/-- With no scheduler address, a local cluster request and no preconfigured
runner, one loop iteration creates the local client. -/
lemma stepStage_creates {α : Type} {r : Recipe} {f : Stage → α → α} {st : FlowState α}
    {s : Stage} (hs : r.scheduler_address = none) (hb : r.use_local_dask = true)
    (ho : s.runnerOverride = none) (hc : st.client = none) :
    (stepStage r f st s).client = some (ClientKind.localClient 3) := by
  unfold stepStage clientStep
  rw [hs]
  show (if r.use_local_dask = true ∧ (get_prefect_config_dict s).task_runner = none
    then maybeLocal st else st).client = some (ClientKind.localClient 3)
  rw [if_pos ⟨hb, by unfold get_prefect_config_dict; rw [ho]⟩]
  unfold maybeLocal
  rw [hc]

/-- With no scheduler address and a preconfigured runner on the stage, an
absent client stays absent across one loop iteration. -/
lemma stepStage_keeps_none {α : Type} {r : Recipe} {f : Stage → α → α} {st : FlowState α}
    {s : Stage} (hs : r.scheduler_address = none) (ho : s.runnerOverride ≠ none)
    (hc : st.client = none) : (stepStage r f st s).client = none := by
  unfold stepStage clientStep
  rw [hs]
  show (if r.use_local_dask = true ∧ (get_prefect_config_dict s).task_runner = none
    then maybeLocal st else st).client = none
  rw [if_neg (fun h2 => ho (by
    have h3 := h2.2
    unfold get_prefect_config_dict at h3
    exact h3))]
  exact hc

/-- The threaded data after a stage fold is the fold of the stage
functions. -/
lemma foldl_stepStage_data {α : Type} (r : Recipe) (f : Stage → α → α) :
    ∀ (ss : List Stage) (st : FlowState α),
      (ss.foldl (stepStage r f) st).data = ss.foldl (fun d s => f s d) st.data := by
  intro ss
  induction ss with
  | nil => intro st; rfl
  | cons s ss ih =>
    intro st
    rw [List.foldl_cons, List.foldl_cons, ih, stepStage_data]

/-- After a non-empty stage fold, the last output is the fold of the stage
functions. -/
lemma foldl_stepStage_output {α : Type} (r : Recipe) (f : Stage → α → α) :
    ∀ (ss : List Stage) (st : FlowState α), ss ≠ [] →
      (ss.foldl (stepStage r f) st).output =
        some (ss.foldl (fun d s => f s d) st.data) := by
  intro ss
  induction ss with
  | nil =>
    intro st h
    exact absurd rfl h
  | cons s ss ih =>
    intro st _
    rw [List.foldl_cons, List.foldl_cons]
    cases ss with
    | nil =>
      show (stepStage r f st s).output = some (f s st.data)
      exact stepStage_output r f st s
    | cons s2 ss2 =>
      rw [ih (stepStage r f st s) (List.cons_ne_nil s2 ss2), stepStage_data]

/-- The stage invocations of a stage fold are exactly the prescribed
sequence. -/
lemma foldl_stepStage_ranEvents {α : Type} (r : Recipe) (f : Stage → α → α) :
    ∀ (ss : List Stage) (st : FlowState α),
      ranEvents (ss.foldl (stepStage r f) st).events =
        ranEvents st.events ++ expectedRuns f st.data ss := by
  intro ss
  induction ss with
  | nil =>
    intro st
    simp [expectedRuns]
  | cons s ss ih =>
    intro st
    rw [List.foldl_cons, ih, stepStage_ranEvents, stepStage_data]
    simp [expectedRuns]

/-- An existing client survives a stage fold unchanged. -/
lemma foldl_client_some {α : Type} (r : Recipe) (f : Stage → α → α) :
    ∀ (ss : List Stage) (st : FlowState α) (c : ClientKind), st.client = some c →
      (ss.foldl (stepStage r f) st).client = some c := by
  intro ss
  induction ss with
  | nil => intro st c h; exact h
  | cons s ss ih =>
    intro st c h
    rw [List.foldl_cons]
    exact ih (stepStage r f st s) c (stepStage_client_some h)

/-- With no scheduler address and a local-cluster request, a stage without
a preconfigured runner guarantees a client exists after the fold. -/
lemma foldl_client_created {α : Type} {r : Recipe} (f : Stage → α → α)
    (hs : r.scheduler_address = none) (hb : r.use_local_dask = true) :
    ∀ (ss : List Stage) (st : FlowState α), (∃ s ∈ ss, s.runnerOverride = none) →
      ∃ c, (ss.foldl (stepStage r f) st).client = some c := by
  intro ss
  induction ss with
  | nil =>
    rintro st ⟨s, hm, _⟩
    cases hm
  | cons s ss ih =>
    rintro st ⟨s2, hm, ho⟩
    rw [List.foldl_cons]
    cases hc : st.client with
    | some c =>
      exact ⟨c, foldl_client_some r f ss _ c (stepStage_client_some hc)⟩
    | none =>
      by_cases hov : s.runnerOverride = none
      · exact ⟨ClientKind.localClient 3,
          foldl_client_some r f ss _ _ (stepStage_creates hs hb hov hc)⟩
      · rcases List.mem_cons.mp hm with rfl | hm2
        · exact absurd ho hov
        · exact ih (stepStage r f st s) ⟨s2, hm2, ho⟩

/-- The nested process/stage fold equals the fold over the declared stage
sequence. -/
lemma nested_foldl_eq {α : Type} (r : Recipe) (f : Stage → α → α) :
    ∀ (ps : List Process) (st : FlowState α),
      ps.foldl (fun acc proc => proc.stages.foldl (stepStage r f) acc) st =
        ((ps.map (fun p => p.stages)).flatten).foldl (stepStage r f) st := by
  intro ps
  induction ps with
  | nil => intro st; rfl
  | cons p ps ih =>
    intro st
    rw [List.foldl_cons, List.map_cons, List.flatten_cons, List.foldl_append, ih]

/-- A non-empty process list of non-empty processes declares at least one
stage. -/
lemma declStages_ne_nil {r : Recipe} (h1 : r.pipeline ≠ [])
    (h2 : ∀ p ∈ r.pipeline, p.stages ≠ []) : declStages r ≠ [] := by
  unfold declStages
  cases hp : r.pipeline with
  | nil => exact absurd hp h1
  | cons p ps =>
    intro hflat
    rw [List.map_cons, List.flatten_cons] at hflat
    have hnil := (List.append_eq_nil.mp hflat).1
    exact h2 p (by rw [hp]; exact List.mem_cons_self p ps) hnil

/-- Neither remote connection nor local creation records a stage run or a
close, and each keeps the creation count in sync with the client kind. -/
lemma maybeRemote_inv {α : Type} {r : Recipe} {st : FlowState α} {addr : String}
    (hs : r.scheduler_address = some addr) (h : FlowInv r st) :
    FlowInv r (maybeRemote addr st) := by
  obtain ⟨h1, h2, h3⟩ := h
  unfold maybeRemote
  cases hc : st.client with
  | some c =>
    exact ⟨h1, h2, h3⟩
  | none =>
    rw [hc] at h1
    refine ⟨?_, ?_, ?_⟩
    · show localCreates (st.events ++ [FlowEvent.connectedRemote addr]) =
        clientLocalCount (some (ClientKind.remote addr))
      unfold localCreates at h1 ⊢
      rw [List.countP_append, h1]
      rfl
    · show closes (st.events ++ [FlowEvent.connectedRemote addr]) = 0
      unfold closes at h2 ⊢
      rw [List.countP_append, h2]
      rfl
    · intro hn
      rw [hs] at hn
      exact Option.noConfusion hn

/-- The local-creation step preserves the loop invariant. -/
lemma maybeLocal_inv {α : Type} {r : Recipe} {st : FlowState α} (h : FlowInv r st) :
    FlowInv r (maybeLocal st) := by
  obtain ⟨h1, h2, h3⟩ := h
  unfold maybeLocal
  cases hc : st.client with
  | some c =>
    exact ⟨h1, h2, h3⟩
  | none =>
    rw [hc] at h1
    refine ⟨?_, ?_, ?_⟩
    · show localCreates (st.events ++ [FlowEvent.createdLocalCluster 3]) =
        clientLocalCount (some (ClientKind.localClient 3))
      unfold localCreates at h1 ⊢
      rw [List.countP_append, h1]
      rfl
    · show closes (st.events ++ [FlowEvent.createdLocalCluster 3]) = 0
      unfold closes at h2 ⊢
      rw [List.countP_append, h2]
      rfl
    · intro _ a hcl
      exact ClientKind.noConfusion (Option.some.inj hcl)

/-- One loop iteration preserves the loop invariant. -/
lemma stepStage_inv {α : Type} {r : Recipe} {f : Stage → α → α} {st : FlowState α}
    (s : Stage) (h : FlowInv r st) : FlowInv r (stepStage r f st s) := by
  have hcs : FlowInv r (clientStep r (get_prefect_config_dict s) st) := by
    rcases clientStep_cases r (get_prefect_config_dict s) st with h2 | ⟨addr, ha, h2⟩ | h2 <;>
      rw [h2]
    · exact h
    · exact maybeRemote_inv ha h
    · exact maybeLocal_inv h
  obtain ⟨h1, h2, h3⟩ := hcs
  unfold stepStage
  refine ⟨?_, ?_, ?_⟩
  · show localCreates ((clientStep r (get_prefect_config_dict s) st).events ++
        [FlowEvent.ranStage s (clientStep r (get_prefect_config_dict s) st).data]) =
      clientLocalCount (clientStep r (get_prefect_config_dict s) st).client
    unfold localCreates at h1 ⊢
    rw [List.countP_append, h1]
    rfl
  · show closes ((clientStep r (get_prefect_config_dict s) st).events ++
        [FlowEvent.ranStage s (clientStep r (get_prefect_config_dict s) st).data]) = 0
    unfold closes at h2 ⊢
    rw [List.countP_append, h2]
    rfl
  · exact h3

/-- A stage fold preserves the loop invariant. -/
lemma foldl_stepStage_inv {α : Type} {r : Recipe} {f : Stage → α → α} :
    ∀ (ss : List Stage) (st : FlowState α), FlowInv r st →
      FlowInv r (ss.foldl (stepStage r f) st) := by
  intro ss
  induction ss with
  | nil => intro st h; exact h
  | cons s ss ih =>
    intro st h
    rw [List.foldl_cons]
    exact ih (stepStage r f st s) (stepStage_inv s h)

/-- The whole loop preserves the loop invariant. -/
lemma runLoop_inv {α : Type} {r : Recipe} {f : Stage → α → α} {st : FlowState α}
    (h : FlowInv r st) : FlowInv r (runLoop r f st) := by
  unfold runLoop
  rw [nested_foldl_eq]
  exact foldl_stepStage_inv _ st h

/-- The initial state satisfies the loop invariant. -/
lemma initState_inv {α : Type} (r : Recipe) (d0 : α) : FlowInv r (initState d0) :=
  ⟨rfl, rfl, fun _ _ h => Option.noConfusion h⟩

/-- A client accounts for at most one local creation. -/
lemma clientLocalCount_le_one (c : Option ClientKind) : clientLocalCount c ≤ 1 := by
  rcases c with _ | c
  · exact Nat.zero_le 1
  · cases c with
    | remote a => exact Nat.zero_le 1
    | localClient n => exact Nat.le_refl 1

/-- Teardown keeps the creation count at most one, closes at most once,
and closes only when a local cluster was created. -/
lemma teardown_counts {α : Type} (r : Recipe) (st : FlowState α) (h : FlowInv r st) :
    localCreates (teardown r st).1.events ≤ 1 ∧
    closes (teardown r st).1.events ≤ 1 ∧
    (1 ≤ closes (teardown r st).1.events →
      localCreates (teardown r st).1.events = 1) := by
  obtain ⟨h1, h2, h3⟩ := h
  unfold teardown
  by_cases hg : r.scheduler_address = none ∧ r.use_local_dask = true
  · rw [if_pos hg]
    cases hc : st.client with
    | none =>
      refine ⟨?_, ?_, ?_⟩
      · show localCreates st.events ≤ 1
        rw [h1]
        exact clientLocalCount_le_one _
      · show closes st.events ≤ 1
        rw [h2]
        exact Nat.zero_le 1
      · show 1 ≤ closes st.events → localCreates st.events = 1
        rw [h2]
        intro hcon
        exact absurd hcon (Nat.not_succ_le_zero 0)
    | some c =>
      have hn : ∃ n, c = ClientKind.localClient n := by
        cases c with
        | remote a => exact absurd hc (h3 hg.1 a)
        | localClient n => exact ⟨n, rfl⟩
      obtain ⟨n, hcn⟩ := hn
      subst hcn
      rw [hc] at h1
      have hcreate : localCreates (st.events ++
          [FlowEvent.closedClient (ClientKind.localClient n)]) = 1 := by
        unfold localCreates at h1 ⊢
        rw [List.countP_append, h1]
        rfl
      have hclose : closes (st.events ++
          [FlowEvent.closedClient (ClientKind.localClient n)]) = 1 := by
        unfold closes at h2 ⊢
        rw [List.countP_append, h2]
        rfl
      cases ho : st.output with
      | none =>
        refine ⟨?_, ?_, ?_⟩
        · show localCreates (st.events ++
            [FlowEvent.closedClient (ClientKind.localClient n)]) ≤ 1
          rw [hcreate]
        · show closes (st.events ++
            [FlowEvent.closedClient (ClientKind.localClient n)]) ≤ 1
          rw [hclose]
        · intro _
          exact hcreate
      | some o =>
        refine ⟨?_, ?_, ?_⟩
        · show localCreates (st.events ++
            [FlowEvent.closedClient (ClientKind.localClient n)]) ≤ 1
          rw [hcreate]
        · show closes (st.events ++
            [FlowEvent.closedClient (ClientKind.localClient n)]) ≤ 1
          rw [hclose]
        · intro _
          exact hcreate
  · rw [if_neg hg]
    cases ho : st.output with
    | none =>
      refine ⟨?_, ?_, ?_⟩
      · show localCreates st.events ≤ 1
        rw [h1]
        exact clientLocalCount_le_one _
      · show closes st.events ≤ 1
        rw [h2]
        exact Nat.zero_le 1
      · show 1 ≤ closes st.events → localCreates st.events = 1
        rw [h2]
        intro hcon
        exact absurd hcon (Nat.not_succ_le_zero 0)
    | some o =>
      refine ⟨?_, ?_, ?_⟩
      · show localCreates st.events ≤ 1
        rw [h1]
        exact clientLocalCount_le_one _
      · show closes st.events ≤ 1
        rw [h2]
        exact Nat.zero_le 1
      · show 1 ≤ closes st.events → localCreates st.events = 1
        rw [h2]
        intro hcon
        exact absurd hcon (Nat.not_succ_le_zero 0)

/-- C3: over any single run, `init_flow` creates at most one local cluster
regardless of how many stages request a backend (creation is lazy and
guarded by the client being absent, and the client is reused afterwards),
closes the client at most once, and closes only if a local cluster was
created during the run. -/
theorem init_flow_single_local_cluster {α : Type} (r : Recipe) (f : Stage → α → α)
    (d0 : α) :
    localCreates (init_flow r f d0).1.events ≤ 1 ∧
    closes (init_flow r f d0).1.events ≤ 1 ∧
    (1 ≤ closes (init_flow r f d0).1.events →
      localCreates (init_flow r f d0).1.events = 1) := by
  unfold init_flow
  exact teardown_counts r _ (runLoop_inv (initState_inv r d0))

/-- C4 (code bug): with a scheduler address configured and
`use_local_dask` set, the elif branch creates a local cluster for the only
stage, yet the teardown guard `scheduler_address is None` is false, so the
locally created cluster is never closed — contradicting the source comment
that the local cluster is to be closed. -/
theorem init_flow_local_cluster_not_closed :
    localCreates (init_flow exRecipeHostedLocal exRunCount 0).1.events = 1 ∧
    closes (init_flow exRecipeHostedLocal exRunCount 0).1.events = 0 ∧
    (init_flow exRecipeHostedLocal exRunCount 0).2 = Except.ok 1 :=
  ⟨rfl, rfl, rfl⟩

/-- C5 (amended): for a recipe with non-empty processes and stages, the
loop visits the declared stages in order, each stage function receiving
the previous output (the first receives the input collection), and the
fold of the stage functions is returned as the pipeline result — provided
it is not the case that the recipe requests a local cluster with no
scheduler address while every declared stage carries an execution-backend
override (in that case teardown fails after all stages have run). -/
theorem init_flow_runs_stages_in_order {α : Type} (r : Recipe) (f : Stage → α → α)
    (d0 : α) (h1 : r.pipeline ≠ []) (h2 : ∀ p ∈ r.pipeline, p.stages ≠ [])
    (h3 : ¬(r.scheduler_address = none ∧ r.use_local_dask = true ∧
        ∀ s ∈ declStages r, s.runnerOverride ≠ none)) :
    ranEvents (init_flow r f d0).1.events = expectedRuns f d0 (declStages r) ∧
    (init_flow r f d0).2 = Except.ok ((declStages r).foldl (fun d s => f s d) d0) := by
  have hloop : runLoop r f (initState d0) =
      (declStages r).foldl (stepStage r f) (initState d0) := by
    unfold runLoop declStages
    exact nested_foldl_eq r f r.pipeline (initState d0)
  have hout : ((declStages r).foldl (stepStage r f) (initState d0)).output =
      some ((declStages r).foldl (fun d s => f s d) d0) :=
    foldl_stepStage_output r f (declStages r) (initState d0) (declStages_ne_nil h1 h2)
  have hran : ranEvents ((declStages r).foldl (stepStage r f) (initState d0)).events =
      expectedRuns f d0 (declStages r) := by
    rw [foldl_stepStage_ranEvents]
    simp [initState, ranEvents]
  unfold init_flow teardown
  rw [hloop]
  by_cases hg : r.scheduler_address = none ∧ r.use_local_dask = true
  · rw [if_pos hg]
    have hcl : ∃ c, ((declStages r).foldl (stepStage r f) (initState d0)).client
        = some c := by
      push_neg at h3
      obtain ⟨s, hs, ho⟩ := h3 hg.1 hg.2
      exact foldl_client_created f hg.1 hg.2 (declStages r) (initState d0) ⟨s, hs, ho⟩
    obtain ⟨c, hc⟩ := hcl
    rw [hc, hout]
    constructor
    · show ranEvents (((declStages r).foldl (stepStage r f) (initState d0)).events ++
        [FlowEvent.closedClient c]) = expectedRuns f d0 (declStages r)
      rw [ranEvents_append, hran]
      simp [ranEvents]
    · rfl
  · rw [if_neg hg, hout]
    exact ⟨hran, rfl⟩

/-- Witness for the orchestration theorem at a one-process, one-stage
recipe requesting a local cluster. -/
theorem init_flow_runs_stages_in_order_witness :
    exRecipeLocal.pipeline ≠ [] ∧
    (∀ p ∈ exRecipeLocal.pipeline, p.stages ≠ []) ∧
    ¬(exRecipeLocal.scheduler_address = none ∧ exRecipeLocal.use_local_dask = true ∧
        ∀ s ∈ declStages exRecipeLocal, s.runnerOverride ≠ none) ∧
    (ranEvents (init_flow exRecipeLocal exRunCount 0).1.events =
        expectedRuns exRunCount 0 (declStages exRecipeLocal) ∧
      (init_flow exRecipeLocal exRunCount 0).2 =
        Except.ok ((declStages exRecipeLocal).foldl (fun d s => exRunCount s d) 0)) :=
  ⟨by decide, by decide, by decide,
    init_flow_runs_stages_in_order exRecipeLocal exRunCount 0
      (by decide) (by decide) (by decide)⟩

/-- Counterexample to C5 as stated: when the recipe requests a local
cluster with no scheduler address and the only stage carries a backend
override, the stage runs and its value is computed, but `init_flow` raises
at teardown (`client.close()` on `None`) instead of returning the last
stage's value. -/
theorem init_flow_result_lost_on_teardown :
    ranEvents (init_flow exRecipeAllPreset exRunCount 0).1.events =
      [(exStagePreset, 0)] ∧
    (init_flow exRecipeAllPreset exRunCount 0).2 = Except.error attrErrorMsg ∧
    (init_flow exRecipeAllPreset exRunCount 0).2 ≠
      Except.ok ((declStages exRecipeAllPreset).foldl (fun d s => exRunCount s d) 0) := by
  refine ⟨rfl, rfl, ?_⟩
  intro hc
  rw [show (init_flow exRecipeAllPreset exRunCount 0).2 = Except.error attrErrorMsg
    from rfl] at hc
  exact Except.noConfusion hc

/-- C10: a recipe with no processes, or whose processes all carry empty
stage lists, makes `init_flow` fail rather than return the input
collection unchanged: either `client.close()` is evaluated on an absent
client, or the never-assigned `output` variable is returned. -/
theorem init_flow_requires_stages {α : Type} (r : Recipe) (f : Stage → α → α) (d0 : α)
    (h : r.pipeline = [] ∨ ∀ p ∈ r.pipeline, p.stages = []) :
    (init_flow r f d0).2 = Except.error attrErrorMsg ∨
    (init_flow r f d0).2 = Except.error unboundOutputMsg := by
  have hds : declStages r = [] := by
    unfold declStages
    rcases h with h | h
    · rw [h]
      rfl
    · rw [List.flatten_eq_nil_iff]
      intro l hl
      obtain ⟨p, hp, hpe⟩ := List.mem_map.mp hl
      rw [← hpe]
      exact h p hp
  have hloop : runLoop r f (initState d0) = initState d0 := by
    unfold runLoop
    rw [nested_foldl_eq r f r.pipeline (initState d0)]
    show ((r.pipeline.map (fun p => p.stages)).flatten).foldl
      (stepStage r f) (initState d0) = initState d0
    rw [show (r.pipeline.map (fun p => p.stages)).flatten = declStages r from rfl, hds]
    rfl
  unfold init_flow
  rw [hloop]
  unfold teardown
  by_cases hg : r.scheduler_address = none ∧ r.use_local_dask = true
  · rw [if_pos hg]
    left
    rfl
  · rw [if_neg hg]
    right
    rfl

/-- Witness for the empty-recipe theorem. -/
theorem init_flow_requires_stages_witness :
    (exRecipeEmpty.pipeline = [] ∨ ∀ p ∈ exRecipeEmpty.pipeline, p.stages = []) ∧
    ((init_flow exRecipeEmpty exRunCount 0).2 = Except.error attrErrorMsg ∨
      (init_flow exRecipeEmpty exRunCount 0).2 = Except.error unboundOutputMsg) :=
  ⟨Or.inl rfl, init_flow_requires_stages exRecipeEmpty exRunCount 0 (Or.inl rfl)⟩

end Echoflow
